import Mathlib

/-!
# Verification of wpaperd's filelist cache and transition renderer

A shallow embedding of the two core subsystems of the wpaperd daemon:

* `src/daemon/src/filelist_cache.rs` — the per-(path, recursion-policy)
  cache of image files found under watched directories, kept fresh by
  re-population (`Filelist::populate`), reconciled against a desired set of
  paths (`FilelistCache::update_paths`) and refreshed on demand
  (`FilelistCache::update_cache`).
* `src/daemon/src/render/renderer.rs` — the GPU cross-fade renderer: the
  transition progress computation in `Renderer::draw`, the texture-slot
  swap in `Renderer::load_wallpaper`, the scaling policy of
  `Renderer::set_mode`, `Renderer::start_transition`,
  `Renderer::transition_finished` and `Renderer::update_transition`.

Rust `u32` times are embedded as `ℕ` (saturating subtraction is `ℕ`
subtraction), `f32` texture-scale arithmetic as exact `ℚ` arithmetic, and
`Arc<Vec<PathBuf>>` snapshots as indices into an explicit append-only heap
(`store`), so that claims about snapshot immutability are statable.
The filesystem is embedded as a finite set of (path, is-directory) nodes;
`WalkDir`'s enumeration (depth-first, siblings in `sort_by_file_name`
order, bounded by `max_depth`) is embedded as the lexicographically sorted
list of the nodes under the walked root, which is the same list in the
same order. String comparison and splitting are embedded over the
character lists of the strings (walkdir compares file names bytewise;
for the ASCII names used here the character order is the byte order).
-/

/-- The recursion policy of a watched directory. Modelled from the spec:
`RecursionPolicy — enum {Off, On}` (the type is declared in a file of the
repository outside `src/`; `src/daemon/src/filelist_cache.rs` only compares
it with `Recursive::Off` and tests it for equality). -/
inductive Recursive where
  | off
  | on
  deriving DecidableEq, Repr

/-- An absolute path, as its list of components (`PathBuf`). -/
abbrev FilePath' := List String

/-- The file name of a path: its last component (Rust `Path::file_name`). -/
def filename (p : FilePath') : String := p.getLastD ""

/-- Strict lexicographic order on character lists (the order `OsStr`
comparison induces on the ASCII names used here). -/
def charLT : List Char → List Char → Bool
  | [], [] => false
  | [], _ :: _ => true
  | _ :: _, [] => false
  | a :: as, b :: bs => if a < b then true else if a = b then charLT as bs else false

/-- Strict file-name order. -/
def strLT (a b : String) : Bool := charLT a.data b.data

/-- Non-strict file-name order. -/
def strLE (a b : String) : Bool := strLT a b || a == b

/-- The characters after the last `.` of a file name, if any dot occurs. -/
def afterLastDot : List Char → Option (List Char)
  | [] => none
  | c :: rest =>
    match afterLastDot rest with
    | some e => some e
    | none => if c = '.' then some rest else none

/-- The extension of a file name, following Rust's `Path::extension`: the
part after the last `.`, except that the leading `.` of a hidden file does
not count as a separator; `none` when there is no separating dot. -/
def extensionOf (name : String) : Option (List Char) :=
  match name.data with
  | [] => none
  | c :: rest => if c = '.' then afterLastDot rest else afterLastDot (c :: rest)

/-- ASCII lower-casing of one character (`new_mime_guess` looks extensions
up case-insensitively). -/
def asciiLower (c : Char) : Char :=
  if 'A' ≤ c && c ≤ 'Z' then Char.ofNat (c.toNat + 32) else c

/-- The top-level media type that `new_mime_guess` assigns to an extension
(first guess), embedded as a finite table over a representative subset of
the crate's extension database, looked up case-insensitively as in the
crate. Extensions outside the table resolve to `none`. -/
def mimeTopType (ext : List Char) : Option String :=
  let e := ext.map asciiLower
  if e ∈ ["png".data, "jpg".data, "jpeg".data, "gif".data, "bmp".data, "webp".data,
          "tiff".data, "tif".data, "svg".data, "avif".data, "ico".data, "heic".data,
          "jfif".data, "apng".data] then some "image"
  else if e ∈ ["txt".data, "md".data, "toml".data, "json".data, "html".data,
               "css".data, "csv".data, "rs".data] then some "text"
  else if e ∈ ["mp4".data, "mkv".data, "webm".data, "avi".data, "mov".data] then
    some "video"
  else if e ∈ ["mp3".data, "flac".data, "ogg".data, "wav".data] then some "audio"
  else if e ∈ ["pdf".data, "zip".data, "gz".data, "tar".data, "wasm".data] then
    some "application"
  else none

/-- The filter predicate of `Filelist::populate`: keep an entry iff
`new_mime_guess::from_path(path).first()` exists and its `type_()` is
`"image"`. -/
def isImageMime (p : FilePath') : Bool :=
  match (extensionOf (filename p)).bind mimeTopType with
  | some t => t == "image"
  | none => false

/-- The filesystem: a finite set of nodes, each an absolute path marked as
directory (`true`) or plain file (`false`). Symbolic links are not
represented: the node set is the link-resolved view that
`follow_links(true)` produces on a link-free filesystem. -/
structure FS where
  nodes : List (FilePath' × Bool)

/-- Resolve a path to its node kind (`some true` directory, `some false`
file, `none` nonexistent). -/
def findNode (fs : FS) (p : FilePath') : Option Bool :=
  (fs.nodes.find? fun n => n.1 == p).map (·.2)

/-- Rust `Path::exists`. -/
def pathExists (fs : FS) (p : FilePath') : Bool := (findNode fs p).isSome

/-- Rust `Path::is_dir`. -/
def isDir (fs : FS) (p : FilePath') : Bool := findNode fs p == some true

/-- Lexicographic order on paths, component by component with the file-name
order: a proper prefix comes first, otherwise the first differing component
decides. This is exactly the order in which `WalkDir` with
`sort_by_file_name` yields the nodes under a root: a directory is yielded
before its contents (prefix first), and siblings are yielded in file-name
order (the first differing component is the file name under the closest
common ancestor). -/
def pathLE : FilePath' → FilePath' → Bool
  | [], _ => true
  | _ :: _, [] => false
  | a :: as, b :: bs => if strLT a b then true else if a = b then pathLE as bs else false

/-- The relation `pathLE` as a `Prop`, for `List.insertionSort`. -/
def PathLE (p q : FilePath') : Prop := pathLE p q = true

instance : DecidableRel PathLE := fun p q => by unfold PathLE; infer_instance

/-- `usize::MAX`, the `max_depth` that `Filelist::populate` passes for a
recursive walk. -/
def usizeMax : ℕ := 2 ^ 64 - 1

/-- `WalkDir`'s enumeration: every node that the walked root is a prefix of
(the root itself included, at depth 0) and whose depth relative to the root
is at most `max_depth`, in depth-first order with siblings in
`sort_by_file_name` order — that is, in lexicographic path order. -/
def walkdirList (fs : FS) (root : FilePath') (maxDepth : ℕ) : List FilePath' :=
  List.insertionSort PathLE
    ((fs.nodes.map (·.1)).filter fun p =>
      root.isPrefixOf p && p.length ≤ root.length + maxDepth)

/-- The list that `Filelist::populate` builds: walk the registered path with
`max_depth` 1 (`Recursive::Off`) or `usize::MAX` (`Recursive::On`) and keep
exactly the entries whose mime guess has top-level type `image`. A
nonexistent root yields the empty list (`WalkDir` produces one `Err` entry
there, which `filter_map(|e| e.ok())` drops). -/
def populateList (fs : FS) (path : FilePath') (recursive : Recursive) : List FilePath' :=
  if pathExists fs path then
    (walkdirList fs path (if recursive = Recursive.off then 1 else usizeMax)).filter
      isImageMime
  else []

/-- The scenario filesystem: `/wp` holding `a.png`, `b.txt`, `c.jpg`. -/
def exampleFS : FS :=
  ⟨[(["wp"], true), (["wp", "a.png"], false), (["wp", "b.txt"], false),
    (["wp", "c.jpg"], false)]⟩

/-- One cache entry (struct `Filelist`): the watched path, its recursion
policy, the `Arc<Vec<PathBuf>>` snapshot — embedded as an index into the
cache's append-only heap of snapshots — and the `outdated` flag (an
`Arc<AtomicBool>` shared with the watch callback; in this sequential
embedding a plain flag that the invalidation event sets). -/
structure Filelist where
  path : FilePath'
  recursive : Recursive
  filelist : ℕ
  outdated : Bool
  deriving DecidableEq, Repr

/-- The filelist cache (struct `FilelistCache`), together with the heap of
`Arc` snapshots: `store.get! i` is the immutable list the `Arc` index `i`
denotes. Allocating a new `Arc` appends to `store`; no operation writes an
existing index, which is what makes the handed-out snapshots immutable. -/
structure FilelistCache where
  store : List (List FilePath')
  cache : List Filelist
  deriving DecidableEq, Repr

/-- The observable side effects of the cache operations: watch registration
and removal (`hotwatch.watch` / `hotwatch.unwatch`) and a directory
re-enumeration (`Filelist::populate`). -/
inductive CacheEvent where
  | watch (path : FilePath')
  | unwatch (path : FilePath')
  | scan (path : FilePath') (recursive : Recursive)
  deriving DecidableEq, Repr

/-- `Filelist::populate`: build the new file list, store it in a freshly
allocated `Arc` (`self.filelist = Arc::new(...)`) and clear the outdated
flag. The old snapshot is left untouched in the heap. -/
def Filelist.populate (fs : FS) (store : List (List FilePath')) (e : Filelist) :
    List (List FilePath') × Filelist :=
  (store ++ [populateList fs e.path e.recursive],
   { e with filelist := store.length, outdated := false })

/-- `Filelist::new`: a fresh entry starts with an empty `Arc`d list and the
outdated flag set, then populates itself once, synchronously. -/
def Filelist.new (fs : FS) (store : List (List FilePath')) (path : FilePath')
    (recursive : Recursive) : List (List FilePath') × Filelist :=
  Filelist.populate fs (store ++ [[]])
    { path := path, recursive := recursive, filelist := store.length, outdated := true }

/-- `FilelistCache::get`: find the entry for the pair and clone its `Arc`
(return the snapshot index). The source `expect`s that the pair was cached;
the `none` case embeds that panic. -/
def FilelistCache.get (c : FilelistCache) (path : FilePath') (recursive : Recursive) :
    Option ℕ :=
  (c.cache.find? fun e => e.path == path && decide (e.recursive = recursive)).map
    (·.filelist)

/-- What a `FilelistCache::get` caller reads: the immutable list that the
returned `Arc` (snapshot index) denotes in the heap. -/
def FilelistCache.lookupList (c : FilelistCache) (path : FilePath')
    (recursive : Recursive) : Option (List FilePath') :=
  (c.get path recursive).bind fun i => c.store.get? i

/-- The body of `FilelistCache::update_cache`: re-populate, in order, every
entry whose outdated flag is set. -/
def updateCacheGo (fs : FS) (store : List (List FilePath')) :
    List Filelist → List (List FilePath') × List Filelist × List CacheEvent
  | [] => (store, [], [])
  | e :: rest =>
    if e.outdated then
      let p := Filelist.populate fs store e
      let rec1 := updateCacheGo fs p.1 rest
      (rec1.1, p.2 :: rec1.2.1, .scan e.path e.recursive :: rec1.2.2)
    else
      let rec1 := updateCacheGo fs store rest
      (rec1.1, e :: rec1.2.1, rec1.2.2)

/-- `FilelistCache::update_cache`. -/
def FilelistCache.update_cache (fs : FS) (c : FilelistCache) :
    FilelistCache × List CacheEvent :=
  let u := updateCacheGo fs c.store c.cache
  (⟨u.1, u.2.1⟩, u.2.2)

/-- The `retain` predicate of `FilelistCache::update_paths`: an entry is
kept iff its (path, recursion) pair is in the requested set and its path
still exists on disk. -/
def retainKeep (fs : FS) (paths : List (FilePath' × Recursive)) (e : Filelist) : Bool :=
  (paths.any fun pr => pr.1 == e.path && decide (e.recursive = pr.2)) && pathExists fs e.path

/-- The registration loop of `FilelistCache::update_paths`: for each
requested pair whose path no entry already covers — the check is on the
path alone, not on the (path, recursion) pair — skip nonexistent paths and
plain files, otherwise create a populated entry, push it, and watch the
path. -/
def registerGo (fs : FS) (store : List (List FilePath')) (cache : List Filelist) :
    List (FilePath' × Recursive) →
      List (List FilePath') × List Filelist × List CacheEvent
  | [] => (store, cache, [])
  | (path, recursive) :: rest =>
    if cache.any fun e => e.path == path then
      registerGo fs store cache rest
    else if !pathExists fs path || !isDir fs path then
      registerGo fs store cache rest
    else
      let n := Filelist.new fs store path recursive
      let rec1 := registerGo fs n.1 (cache ++ [n.2]) rest
      (rec1.1, rec1.2.1, .scan path recursive :: .watch path :: rec1.2.2)

/-- `FilelistCache::update_paths` (the reconcile operation): drop — and,
when their path still exists, unwatch — the entries whose pair is no longer
requested or whose path is gone, then register the requested pairs not yet
covered, then run an `update_cache` pass. -/
def FilelistCache.update_paths (fs : FS) (c : FilelistCache)
    (paths : List (FilePath' × Recursive)) : FilelistCache × List CacheEvent :=
  let retained := c.cache.filter (retainKeep fs paths)
  let evs1 := (c.cache.filter fun e =>
      !retainKeep fs paths e && pathExists fs e.path).map fun e =>
    CacheEvent.unwatch e.path
  let reg := registerGo fs c.store retained paths
  let upd := updateCacheGo fs reg.1 reg.2.1
  (⟨upd.1, upd.2.1⟩, evs1 ++ reg.2.2 ++ upd.2.2)

/-- The watch callback of `update_paths`: a create, remove or modify event
under a watched root stores `true` into that root's shared outdated flag
(and pings the event loop). In the sequential embedding the callback is the
operation that flips the flag of the entries sharing that watch. -/
def FilelistCache.invalidate (c : FilelistCache) (path : FilePath')
    (recursive : Recursive) : FilelistCache :=
  ⟨c.store, c.cache.map fun e =>
    if e.path == path && decide (e.recursive = recursive) then
      { e with outdated := true }
    else e⟩

/-- The operations that can touch the cache after a snapshot was handed
out: a refresh pass, a reconcile against a new desired set, and a
filesystem-watch invalidation. -/
inductive CacheOp where
  | refresh
  | reconcile (paths : List (FilePath' × Recursive))
  | invalidate (path : FilePath') (recursive : Recursive)

/-- Apply one cache operation (dropping the event trace). -/
def applyOp (fs : FS) (c : FilelistCache) : CacheOp → FilelistCache
  | .refresh => (FilelistCache.update_cache fs c).1
  | .reconcile paths => (FilelistCache.update_paths fs c paths).1
  | .invalidate path recursive => FilelistCache.invalidate c path recursive

/-- Apply a sequence of cache operations, oldest first. -/
def applyOps (fs : FS) (c : FilelistCache) : List CacheOp → FilelistCache
  | [] => c
  | op :: ops => applyOps fs (applyOp fs c op) ops

/-- The (path, recursion) pairs of a cache. -/
def pairsOf (cache : List Filelist) : List (FilePath' × Recursive) :=
  cache.map fun e => (e.path, e.recursive)

/-- A decoded image (`image::RgbaImage` / `DynamicImage`): raw RGBA bytes
with pixel dimensions. -/
structure Image where
  width : ℕ
  height : ℕ
  bytes : List ℕ
  deriving DecidableEq, Repr

/-- `transparent_image()`: the 1×1 fully transparent placeholder
(`RgbaImage::from_raw(1, 1, vec![0, 0, 0, 0])`). -/
def transparent_image : Image := ⟨1, 1, [0, 0, 0, 0]⟩

/-- A texture slot. Modelled from the spec: `Texture Slot — represents one
GPU-resident image: a handle, plus the source image's pixel width/height`
(the `Wallpaper` struct lives in a file of the repository outside `src/`;
`renderer.rs` uses its `texture` handle, `image_width`, `image_height` and
`load_image`). `content` is the image resident in the slot's GPU memory. -/
structure Wallpaper where
  texture : ℕ
  image_width : ℕ
  image_height : ℕ
  content : Image
  deriving DecidableEq, Repr

/-- `Wallpaper::load_image`: upload an image into the slot and record its
dimensions. -/
def Wallpaper.load_image (w : Wallpaper) (image : Image) : Wallpaper :=
  { w with image_width := image.width, image_height := image.height, content := image }

/-- Display geometry. Modelled from the spec: `Display geometry: adjusted
width/height (post scale-factor) and aspect ratio` (the `DisplayInfo`
struct lives outside `src/`; `renderer.rs` uses `adjusted_width`,
`adjusted_height` and `ratio`). -/
structure DisplayInfo where
  adjusted_width : ℚ
  adjusted_height : ℚ
  deriving DecidableEq, Repr

/-- The display's aspect ratio, width over height. -/
def DisplayInfo.ratio (d : DisplayInfo) : ℚ := d.adjusted_width / d.adjusted_height

/-- The scaling mode of a wallpaper (`BackgroundMode` in
`src/daemon/src/wallpaper_info.rs`). -/
inductive BackgroundMode where
  | stretch
  | center
  | fit
  | tile
  deriving DecidableEq, Repr

/-- A transition variant. Modelled from the spec: `a tagged choice of
cross-fade algorithms, each carrying its own shader source and optional
extra uniform bindings` (the `Transition` enum lives outside `src/`; the
files under `src/` construct `Transition::Fade {}`). -/
inductive Transition where
  | fade
  deriving DecidableEq, Repr

/-- The `gen_texture_scale` closure of `Renderer::set_mode`: the 2D texture
scale vector for one texture, from the display geometry and the texture's
image dimensions. `f32` arithmetic is embedded as exact `ℚ` arithmetic. -/
def gen_texture_scale (mode : BackgroundMode)
    (display_width display_height display_ratio image_width image_height : ℚ) :
    ℚ × ℚ :=
  let image_ratio : ℚ := image_width / image_height
  match mode with
  | .stretch => (1, 1)
  | .center =>
    (min (display_ratio / image_ratio) 1, min (image_ratio / display_ratio) 1)
  | .fit =>
    if display_ratio > image_ratio then
      (display_width / image_width, max (display_height / image_height) 1)
    else
      (max (display_width / image_width) 1, display_height / image_height)
  | .tile =>
    if display_ratio > image_ratio then
      -- Portrait mode
      let height := max (display_height / image_height / (display_height / display_width)) 1
      if height = 1 then
        (1, 1)
      else
        (display_width / image_width / (display_height / display_width), height)
    else
      -- Landscape mode
      (max (display_width / image_width) 1, display_height / image_height)

/-- The renderer (struct `Renderer`), with the GPU state the claims are
about: the active shader program handle, the two texture slots, and the
`textureScale` / `prevTextureScale` uniforms as `set_mode` last uploaded
them. The vertex/index buffer handles and the texture-wrap parameters are
not represented. -/
structure Renderer where
  program : ℕ
  transition_time : ℕ
  time_started : ℕ
  display_info : DisplayInfo
  old_wallpaper : Wallpaper
  current_wallpaper : Wallpaper
  texture_scale : ℚ × ℚ
  prev_texture_scale : ℚ × ℚ
  deriving DecidableEq, Repr

/-- The progress value `Renderer::draw` computes:
`((time.saturating_sub(self.time_started)) as f32 / self.transition_time as f32).min(1.0)`.
`ℕ` subtraction is the saturating subtraction. When `transition_time` is 0
the `f32` division yields `NaN` (elapsed 0) or `+∞` (elapsed positive), and
Rust's `f32::min(1.0)` maps both to `1.0`, so the embedded progress is 1 in
that case; otherwise the division is exact in `ℚ`. -/
def Renderer.progress (r : Renderer) (time : ℕ) : ℚ :=
  if r.transition_time = 0 then 1
  else min (((time - r.time_started : ℕ) : ℚ) / (r.transition_time : ℚ)) 1

/-- `Renderer::draw`'s return value on the success path
(`transition_going = progress != 1.0`): whether the transition is still
going. The GL calls of `draw` (clear, progress uniform upload, indexed draw)
are not represented. -/
def Renderer.draw (r : Renderer) (time : ℕ) : Bool :=
  decide (r.progress time ≠ 1)

/-- `Renderer::set_mode` (its uniform uploads): recompute both textures'
scale vectors with `gen_texture_scale` and upload them into the
`textureScale` and `prevTextureScale` uniforms. The vertex-buffer rewrite
and the texture-wrap parameters it also sets are not represented. -/
def Renderer.set_mode (r : Renderer) (mode : BackgroundMode) : Renderer :=
  let display_width := r.display_info.adjusted_width
  let display_height := r.display_info.adjusted_height
  let display_ratio := r.display_info.ratio
  { r with
    texture_scale := gen_texture_scale mode display_width display_height display_ratio
      (r.current_wallpaper.image_width : ℚ) (r.current_wallpaper.image_height : ℚ),
    prev_texture_scale := gen_texture_scale mode display_width display_height display_ratio
      (r.old_wallpaper.image_width : ℚ) (r.old_wallpaper.image_height : ℚ) }

/-- `Renderer::load_wallpaper`: swap the two texture slots
(`std::mem::swap(&mut self.old_wallpaper, &mut self.current_wallpaper)`),
upload the new image into the (post-swap) current slot, and re-bind both
wallpapers, which recomputes and uploads both scale vectors via
`set_mode`. -/
def Renderer.load_wallpaper (r : Renderer) (image : Image) (mode : BackgroundMode) :
    Renderer :=
  let swapped := { r with
    old_wallpaper := r.current_wallpaper, current_wallpaper := r.old_wallpaper }
  let loaded := { swapped with
    current_wallpaper := swapped.current_wallpaper.load_image image }
  loaded.set_mode mode

/-- `Renderer::start_transition`: record the start time and the transition
duration for the following draws. -/
def Renderer.start_transition (r : Renderer) (time : ℕ) (new_transition_time : ℕ) :
    Renderer :=
  { r with time_started := time, transition_time := new_transition_time }

/-- `Renderer::update_transition_time`. -/
def Renderer.update_transition_time (r : Renderer) (transition_time : ℕ) : Renderer :=
  { r with transition_time := transition_time }

/-- `Renderer::transition_finished`: reload the old-wallpaper slot with the
1×1 transparent placeholder to free GPU memory. A load failure is logged
and swallowed (the function returns nothing either way); `load_ok` is
whether the GL upload succeeded. -/
def Renderer.transition_finished (r : Renderer) (load_ok : Bool) : Renderer :=
  if load_ok then
    { r with old_wallpaper := r.old_wallpaper.load_image transparent_image }
  else
    r

/-- The GL environment `create_program` runs against, reified as the
outcomes of its fallible steps, in source order: the fragment shader
compilation for the variant's source (the vertex shader is created with
`.expect`, a failure there panics rather than returns), the
`GL_LINK_STATUS` check, the locations of the `u_prev_texture` and
`u_texture` uniforms, and the variant's own uniform callback.
`fresh_program` is the handle `CreateProgram` returns. -/
structure Gl where
  fresh_program : ℕ
  fragment_shader_ok : Transition → Bool
  link_status_ok : Bool
  uniform_loc : String → Int
  transition_uniforms_ok : Transition → Bool

/-- `create_program`: create and link a program for the transition variant,
then assert the texture-unit uniforms; any failing step aborts with a
descriptive error and nothing is returned. -/
def create_program (gl : Gl) (transition : Transition) : Except String ℕ :=
  if !gl.fragment_shader_ok transition then
    .error "unable to create fragment_shader"
  else if !gl.link_status_ok then
    .error "Program was not linked correctly"
  else if !decide (gl.uniform_loc "u_prev_texture" > 0) then
    .error "u_prev_texture not found"
  else if !decide (gl.uniform_loc "u_texture" > 0) then
    .error "u_texture not found"
  else if !gl.transition_uniforms_ok transition then
    .error "transition uniform setup failed"
  else
    .ok gl.fresh_program

/-- `Renderer::update_transition`: build a program for the new variant; on
success delete the old program and install the new one, on failure log the
error and keep the renderer untouched. The second component lists the
programs passed to `DeleteProgram`. -/
def Renderer.update_transition (r : Renderer) (gl : Gl) (transition : Transition) :
    Renderer × List ℕ :=
  match create_program gl transition with
  | .ok program => ({ r with program := program }, [r.program])
  | .error _ => (r, [])

/-! ## Order lemmas for the walkdir enumeration order -/

theorem charLT_irrefl (x : List Char) : charLT x x = false := by
  induction x with
  | nil => rfl
  | cons a as ih => simp [charLT, ih]

theorem charLT_cons_cons {a b : Char} {p q : List Char} :
    charLT (a :: p) (b :: q) = true ↔ a < b ∨ (a = b ∧ charLT p q = true) := by
  by_cases h1 : a < b
  · simp [charLT, h1]
  · by_cases h2 : a = b
    · subst h2; simp [charLT, h1]
    · simp [charLT, h1, h2]

theorem charLT_trans {x y z : List Char} (h1 : charLT x y = true)
    (h2 : charLT y z = true) : charLT x z = true := by
  induction x generalizing y z with
  | nil =>
    cases y with
    | nil => simp [charLT] at h1
    | cons b bs =>
      cases z with
      | nil => simp [charLT] at h2
      | cons c cs => simp [charLT]
  | cons a as ih =>
    cases y with
    | nil => simp [charLT] at h1
    | cons b bs =>
      cases z with
      | nil => simp [charLT] at h2
      | cons c cs =>
        rw [charLT_cons_cons] at h1 h2 ⊢
        rcases h1 with h1 | ⟨rfl, h1⟩
        · rcases h2 with h2 | ⟨rfl, h2⟩
          · exact Or.inl (lt_trans h1 h2)
          · exact Or.inl h1
        · rcases h2 with h2 | ⟨rfl, h2⟩
          · exact Or.inl h2
          · exact Or.inr ⟨rfl, ih h1 h2⟩

theorem charLT_total (x y : List Char) :
    charLT x y = true ∨ x = y ∨ charLT y x = true := by
  induction x generalizing y with
  | nil => cases y <;> simp [charLT]
  | cons a as ih =>
    cases y with
    | nil => simp [charLT]
    | cons b bs =>
      rcases lt_trichotomy a b with h | h | h
      · left; simp [charLT, h]
      · subst h
        rcases ih bs with h2 | h2 | h2
        · left; simp [charLT, h2]
        · right; left; rw [h2]
        · right; right; simp [charLT, h2]
      · right; right; simp [charLT, h]

theorem strLT_irrefl (a : String) : strLT a a = false := charLT_irrefl a.data

theorem strLT_trans {a b c : String} (h1 : strLT a b = true) (h2 : strLT b c = true) :
    strLT a c = true := charLT_trans h1 h2

theorem strLT_total (a b : String) : strLT a b = true ∨ a = b ∨ strLT b a = true := by
  rcases charLT_total a.data b.data with h | h | h
  · left; exact h
  · right; left
    exact congrArg String.mk h
  · right; right; exact h

theorem pathLE_cons_cons {a b : String} {p q : FilePath'} :
    pathLE (a :: p) (b :: q) = true
      ↔ strLT a b = true ∨ (a = b ∧ pathLE p q = true) := by
  by_cases h1 : strLT a b = true
  · simp [pathLE, h1]
  · by_cases h2 : a = b
    · subst h2; simp [pathLE, h1]
    · simp [pathLE, h1, h2]

theorem pathLE_refl (p : FilePath') : pathLE p p = true := by
  induction p with
  | nil => rfl
  | cons a as ih => rw [pathLE_cons_cons]; exact Or.inr ⟨rfl, ih⟩

theorem pathLE_trans {p q r : FilePath'} (h1 : pathLE p q = true)
    (h2 : pathLE q r = true) : pathLE p r = true := by
  induction p generalizing q r with
  | nil => rfl
  | cons a as ih =>
    cases q with
    | nil => simp [pathLE] at h1
    | cons b bs =>
      cases r with
      | nil => simp [pathLE] at h2
      | cons c cs =>
        rw [pathLE_cons_cons] at h1 h2 ⊢
        rcases h1 with h1 | ⟨rfl, h1⟩
        · rcases h2 with h2 | ⟨rfl, h2⟩
          · exact Or.inl (strLT_trans h1 h2)
          · exact Or.inl h1
        · rcases h2 with h2 | ⟨rfl, h2⟩
          · exact Or.inl h2
          · exact Or.inr ⟨rfl, ih h1 h2⟩

theorem pathLE_total (p q : FilePath') : pathLE p q = true ∨ pathLE q p = true := by
  induction p generalizing q with
  | nil => left; rfl
  | cons a as ih =>
    cases q with
    | nil => right; rfl
    | cons b bs =>
      rcases strLT_total a b with h | h | h
      · left; rw [pathLE_cons_cons]; exact Or.inl h
      · subst h
        rcases ih bs with h2 | h2
        · left; rw [pathLE_cons_cons]; exact Or.inr ⟨rfl, h2⟩
        · right; rw [pathLE_cons_cons]; exact Or.inr ⟨rfl, h2⟩
      · right; rw [pathLE_cons_cons]; exact Or.inl h

instance : IsTotal FilePath' PathLE := ⟨pathLE_total⟩

instance : IsTrans FilePath' PathLE := ⟨fun _ _ _ => pathLE_trans⟩

/-- Along equal components the path order reduces to the order of what
follows. -/
theorem pathLE_append_left {r : FilePath'} {p q : FilePath'} :
    pathLE (r ++ p) (r ++ q) = true ↔ pathLE p q = true := by
  induction r with
  | nil => rfl
  | cons a as ih =>
    rw [List.cons_append, List.cons_append, pathLE_cons_cons, ih]
    constructor
    · rintro (h | ⟨-, h⟩)
      · rw [strLT_irrefl] at h; cases h
      · exact h
    · exact fun h => Or.inr ⟨rfl, h⟩

/-- Among two immediate children of the same directory, the walkdir order is
the file-name order. -/
theorem pathLE_children {r : FilePath'} {m n : String}
    (h : pathLE (r ++ [m]) (r ++ [n]) = true) : strLE m n = true := by
  rw [pathLE_append_left] at h
  rw [pathLE_cons_cons] at h
  rcases h with h | ⟨rfl, -⟩
  · simp [strLE, h]
  · simp [strLE]

/-! ## Fixtures for witnesses and counterexamples -/

def sampleDisplay : DisplayInfo := ⟨16, 9⟩

def sampleImage : Image := ⟨4, 2, [0, 0, 0, 0]⟩

def sampleImage2 : Image := ⟨8, 4, [1, 1, 1, 1]⟩

def sampleSlot : Wallpaper := ⟨7, 4, 2, sampleImage⟩

def sampleSlot2 : Wallpaper := ⟨8, 8, 4, sampleImage2⟩

def sampleRenderer : Renderer :=
  { program := 1, transition_time := 10, time_started := 5,
    display_info := sampleDisplay, old_wallpaper := sampleSlot,
    current_wallpaper := sampleSlot2, texture_scale := (1, 1),
    prev_texture_scale := (1, 1) }

/-! ## C2 — transition progress -/

/-- C2: for every frame time `t` (and positive transition duration),
`draw` computes `progress = clamp((t − time_started)/transition_time, 0, 1)`;
progress is monotone non-decreasing in `t` and lies in `[0, 1]`; `draw`
returns `true` exactly when `progress < 1` and `false` once progress has
reached 1. -/
theorem draw_progress_clamp_monotone_bounded (r : Renderer) (t t' : ℕ)
    (h : 0 < r.transition_time) :
    r.progress t
        = max 0 (min ((((t : ℕ) : ℚ) - ((r.time_started : ℕ) : ℚ))
            / ((r.transition_time : ℕ) : ℚ)) 1)
    ∧ (t ≤ t' → r.progress t ≤ r.progress t')
    ∧ 0 ≤ r.progress t ∧ r.progress t ≤ 1
    ∧ (r.draw t = true ↔ r.progress t < 1) := by
  have hne : r.transition_time ≠ 0 := h.ne'
  have hT0 : (0 : ℚ) < (r.transition_time : ℚ) := by exact_mod_cast h
  refine ⟨?_, ?_, ?_, ?_, ?_⟩
  · simp only [Renderer.progress, if_neg hne]
    by_cases hts : r.time_started ≤ t
    · have hcast : ((t - r.time_started : ℕ) : ℚ) = (t : ℚ) - (r.time_started : ℚ) :=
        Nat.cast_sub hts
      rw [hcast, eq_comm, max_eq_right]
      exact le_min (div_nonneg (sub_nonneg.mpr (by exact_mod_cast hts)) hT0.le)
        zero_le_one
    · push_neg at hts
      have hsub : t - r.time_started = 0 := Nat.sub_eq_zero_of_le hts.le
      have hneg : ((t : ℚ) - (r.time_started : ℚ)) / (r.transition_time : ℚ) < 0 :=
        div_neg_of_neg_of_pos (sub_neg.mpr (by exact_mod_cast hts)) hT0
      rw [hsub, Nat.cast_zero, zero_div, min_eq_left zero_le_one, eq_comm,
        min_eq_left (hneg.le.trans zero_le_one), max_eq_left hneg.le]
  · intro htt
    simp only [Renderer.progress, if_neg hne]
    refine min_le_min ?_ le_rfl
    refine (div_le_div_iff_of_pos_right hT0).mpr ?_
    exact_mod_cast Nat.sub_le_sub_right htt _
  · simp only [Renderer.progress, if_neg hne]
    exact le_min (div_nonneg (Nat.cast_nonneg _) hT0.le) zero_le_one
  · simp only [Renderer.progress, if_neg hne]
    exact min_le_right _ _
  · have hle : r.progress t ≤ 1 := by
      simp only [Renderer.progress, if_neg hne]
      exact min_le_right _ _
    simp only [Renderer.draw, decide_eq_true_eq]
    exact ⟨fun hne1 => lt_of_le_of_ne hle hne1, fun hlt => ne_of_lt hlt⟩

theorem draw_progress_clamp_monotone_bounded_witness :
    sampleRenderer.progress 7
        = max 0 (min ((((7 : ℕ) : ℚ) - ((sampleRenderer.time_started : ℕ) : ℚ))
            / ((sampleRenderer.transition_time : ℕ) : ℚ)) 1)
    ∧ (7 ≤ 9 → sampleRenderer.progress 7 ≤ sampleRenderer.progress 9)
    ∧ 0 ≤ sampleRenderer.progress 7 ∧ sampleRenderer.progress 7 ≤ 1
    ∧ (sampleRenderer.draw 7 = true ↔ sampleRenderer.progress 7 < 1) :=
  draw_progress_clamp_monotone_bounded sampleRenderer 7 9 (by decide)

/-! ## C9 — times before the transition start -/

def zeroDurationRenderer : Renderer := { sampleRenderer with transition_time := 0 }

/-- C9 counterexample: with `transition_time = 0` and a frame time before
`time_started`, the saturating subtraction still yields elapsed 0, but the
`f32` division `0.0 / 0.0` is `NaN` and `.min(1.0)` maps it to `1.0`, so
progress is 1 — not 0 as the claim states unconditionally — and `draw`
returns `false`. -/
theorem draw_before_start_zero_duration_cex :
    3 < zeroDurationRenderer.time_started
    ∧ zeroDurationRenderer.progress 3 = 1
    ∧ ¬ zeroDurationRenderer.progress 3 = 0
    ∧ zeroDurationRenderer.draw 3 = false := by decide

/-- C9 (amended): for every frame time `t < time_started` the elapsed time
saturates to 0 — no panic, no wrap-around — and, provided
`transition_time > 0`, progress is 0 and `draw` returns `true` (with
`transition_time = 0` the `f32` semantics collapse progress to 1 instead). -/
theorem draw_before_start_saturates (r : Renderer) (t : ℕ)
    (hbefore : t < r.time_started) (hpos : 0 < r.transition_time) :
    r.progress t = 0 ∧ r.draw t = true := by
  have hne : r.transition_time ≠ 0 := hpos.ne'
  have hsub : t - r.time_started = 0 := Nat.sub_eq_zero_of_le hbefore.le
  have hp : r.progress t = 0 := by
    simp [Renderer.progress, hne, hsub]
  exact ⟨hp, by simp [Renderer.draw, hp]⟩

theorem draw_before_start_saturates_witness :
    sampleRenderer.progress 3 = 0 ∧ sampleRenderer.draw 3 = true :=
  draw_before_start_saturates sampleRenderer 3 (by decide) (by decide)

/-! ## C3 — load_wallpaper -/

/-- C3 counterexample: `load_wallpaper` itself does not call
`start_transition` — it leaves `time_started` (and `transition_time`)
untouched, so at a frame time past the previous transition the progress
after a bare `load_wallpaper` is 1, not 0. -/
theorem load_wallpaper_does_not_reset_progress_cex :
    (sampleRenderer.load_wallpaper sampleImage BackgroundMode.stretch).time_started = 5
    ∧ (sampleRenderer.load_wallpaper sampleImage BackgroundMode.stretch).progress 100 = 1
    ∧ ¬ (sampleRenderer.load_wallpaper sampleImage BackgroundMode.stretch).progress 100
        = 0 := by
  refine ⟨rfl, ?_, ?_⟩
  · show (if (10 : ℕ) = 0 then (1 : ℚ)
        else min (((100 - (5 : ℕ) : ℕ) : ℚ) / ((10 : ℕ) : ℚ)) 1) = 1
    norm_num
  · show ¬ (if (10 : ℕ) = 0 then (1 : ℚ)
        else min (((100 - (5 : ℕ) : ℕ) : ℚ) / ((10 : ℕ) : ℚ)) 1) = 0
    norm_num

/-- C3 (amended): `load_wallpaper(image, mode)` swaps the texture slots
(previous afterwards holds what was current), uploads the new image into
the current slot, and recomputes and uploads both textures' scale vectors;
it does not itself reset the transition clock — the separate
`start_transition(now, duration)` call does, after which progress at `now`
is 0 (for a positive duration). A second `load_wallpaper` before the
transition finishes overwrites the old previous content (last-load-wins):
previous then holds the first new image, current the second. -/
theorem load_wallpaper_swap_scales_restart (r : Renderer) (img1 img2 : Image)
    (mode : BackgroundMode) (now T : ℕ) (hT : 0 < T) :
    (r.load_wallpaper img1 mode).old_wallpaper = r.current_wallpaper
    ∧ (r.load_wallpaper img1 mode).current_wallpaper.content = img1
    ∧ (r.load_wallpaper img1 mode).texture_scale
        = gen_texture_scale mode r.display_info.adjusted_width
            r.display_info.adjusted_height r.display_info.ratio
            (img1.width : ℚ) (img1.height : ℚ)
    ∧ (r.load_wallpaper img1 mode).prev_texture_scale
        = gen_texture_scale mode r.display_info.adjusted_width
            r.display_info.adjusted_height r.display_info.ratio
            (r.current_wallpaper.image_width : ℚ) (r.current_wallpaper.image_height : ℚ)
    ∧ (r.load_wallpaper img1 mode).time_started = r.time_started
    ∧ (r.load_wallpaper img1 mode).transition_time = r.transition_time
    ∧ (((r.load_wallpaper img1 mode).start_transition now T).progress now = 0
        ∧ ((r.load_wallpaper img1 mode).start_transition now T).time_started = now)
    ∧ ((r.load_wallpaper img1 mode).load_wallpaper img2 mode).old_wallpaper.content = img1
    ∧ ((r.load_wallpaper img1 mode).load_wallpaper img2 mode).current_wallpaper.content
        = img2 := by
  refine ⟨rfl, rfl, rfl, rfl, rfl, rfl, ⟨?_, rfl⟩, rfl, rfl⟩
  have hne : T ≠ 0 := hT.ne'
  simp [Renderer.progress, Renderer.start_transition, hne]

theorem load_wallpaper_swap_scales_restart_witness :
    (sampleRenderer.load_wallpaper sampleImage BackgroundMode.stretch).old_wallpaper
        = sampleRenderer.current_wallpaper
    ∧ (sampleRenderer.load_wallpaper sampleImage
        BackgroundMode.stretch).current_wallpaper.content = sampleImage
    ∧ (sampleRenderer.load_wallpaper sampleImage BackgroundMode.stretch).texture_scale
        = gen_texture_scale BackgroundMode.stretch
            sampleRenderer.display_info.adjusted_width
            sampleRenderer.display_info.adjusted_height
            sampleRenderer.display_info.ratio
            (sampleImage.width : ℚ) (sampleImage.height : ℚ)
    ∧ (sampleRenderer.load_wallpaper sampleImage
        BackgroundMode.stretch).prev_texture_scale
        = gen_texture_scale BackgroundMode.stretch
            sampleRenderer.display_info.adjusted_width
            sampleRenderer.display_info.adjusted_height
            sampleRenderer.display_info.ratio
            (sampleRenderer.current_wallpaper.image_width : ℚ)
            (sampleRenderer.current_wallpaper.image_height : ℚ)
    ∧ (sampleRenderer.load_wallpaper sampleImage BackgroundMode.stretch).time_started
        = sampleRenderer.time_started
    ∧ (sampleRenderer.load_wallpaper sampleImage BackgroundMode.stretch).transition_time
        = sampleRenderer.transition_time
    ∧ (((sampleRenderer.load_wallpaper sampleImage
          BackgroundMode.stretch).start_transition 42 10).progress 42 = 0
        ∧ ((sampleRenderer.load_wallpaper sampleImage
            BackgroundMode.stretch).start_transition 42 10).time_started = 42)
    ∧ ((sampleRenderer.load_wallpaper sampleImage
        BackgroundMode.stretch).load_wallpaper sampleImage2
          BackgroundMode.stretch).old_wallpaper.content = sampleImage
    ∧ ((sampleRenderer.load_wallpaper sampleImage
        BackgroundMode.stretch).load_wallpaper sampleImage2
          BackgroundMode.stretch).current_wallpaper.content = sampleImage2 :=
  load_wallpaper_swap_scales_restart sampleRenderer sampleImage sampleImage2
    BackgroundMode.stretch 42 10 (by decide)

/-! ## C10 — transition_finished -/

/-- C10: `transition_finished` touches only the previous-wallpaper slot:
the current wallpaper (with its recorded dimensions), the active program,
`time_started`, `transition_time`, the display info and both uploaded scale
vectors are unchanged, whether or not the placeholder load succeeds; on
success the previous slot holds the 1×1 transparent placeholder. The
function returns nothing, so a load error can only be logged, never
returned. -/
theorem transition_finished_frame (r : Renderer) (load_ok : Bool) :
    (r.transition_finished load_ok).current_wallpaper = r.current_wallpaper
    ∧ (r.transition_finished load_ok).program = r.program
    ∧ (r.transition_finished load_ok).time_started = r.time_started
    ∧ (r.transition_finished load_ok).transition_time = r.transition_time
    ∧ (r.transition_finished load_ok).display_info = r.display_info
    ∧ (r.transition_finished load_ok).texture_scale = r.texture_scale
    ∧ (r.transition_finished load_ok).prev_texture_scale = r.prev_texture_scale
    ∧ (r.transition_finished true).old_wallpaper
        = r.old_wallpaper.load_image transparent_image
    ∧ (r.transition_finished true).old_wallpaper.content = transparent_image
    ∧ (r.transition_finished true).old_wallpaper.image_width = 1
    ∧ (r.transition_finished true).old_wallpaper.image_height = 1
    ∧ (r.transition_finished false).old_wallpaper = r.old_wallpaper := by
  cases load_ok <;>
    simp [Renderer.transition_finished, Wallpaper.load_image, transparent_image]

/-! ## C6 — update_transition -/

/-- C6: if `create_program` fails, `update_transition` leaves the renderer
— in particular the previously active program — untouched and deletes
nothing; only on success is the old program deleted and the new one
installed as active. -/
theorem update_transition_failure_keeps_program (r : Renderer) (gl : Gl)
    (transition : Transition) :
    ((create_program gl transition).isOk = false →
        r.update_transition gl transition = (r, []))
    ∧ (∀ p, create_program gl transition = Except.ok p →
        r.update_transition gl transition = ({ r with program := p }, [r.program])) := by
  cases hcp : create_program gl transition with
  | error e =>
    refine ⟨fun _ => ?_, fun p hp => ?_⟩
    · simp [Renderer.update_transition, hcp]
    · simp at hp
  | ok p0 =>
    refine ⟨fun hfalse => ?_, fun p hp => ?_⟩
    · simp [Except.isOk, Except.toBool] at hfalse
    · obtain rfl : p0 = p := by injection hp
      simp [Renderer.update_transition, hcp]

def glFailing : Gl :=
  { fresh_program := 9, fragment_shader_ok := fun _ => false, link_status_ok := true,
    uniform_loc := fun _ => 1, transition_uniforms_ok := fun _ => true }

def glWorking : Gl :=
  { fresh_program := 9, fragment_shader_ok := fun _ => true, link_status_ok := true,
    uniform_loc := fun _ => 1, transition_uniforms_ok := fun _ => true }

theorem update_transition_failure_keeps_program_witness :
    sampleRenderer.update_transition glFailing Transition.fade = (sampleRenderer, [])
    ∧ sampleRenderer.update_transition glWorking Transition.fade
        = ({ sampleRenderer with program := 9 }, [sampleRenderer.program]) :=
  ⟨(update_transition_failure_keeps_program sampleRenderer glFailing Transition.fade).1
      rfl,
   (update_transition_failure_keeps_program sampleRenderer glWorking Transition.fade).2
      9 rfl⟩

/-! ## C5 — Tile scaling -/

/-- C5 counterexample: in Tile's landscape branch
(`display_ratio ≤ image_ratio`) the vertical scale is
`display_height / image_height` unclamped — for a square 100×100 display
and a 400×200 image it is 1/2 < 1, and the result is not the (1,1)
fallback. -/
theorem tile_landscape_shrinks_cex :
    gen_texture_scale BackgroundMode.tile 100 100 (100 / 100) 400 200 = (1, 1 / 2)
    ∧ ¬ (1 ≤ (gen_texture_scale BackgroundMode.tile 100 100 (100 / 100) 400 200).2)
    ∧ gen_texture_scale BackgroundMode.tile 100 100 (100 / 100) 400 200 ≠ (1, 1) := by
  have h : gen_texture_scale BackgroundMode.tile 100 100 (100 / 100) 400 200
      = (max ((100 : ℚ) / 400) 1, (100 : ℚ) / 200) := by
    simp only [gen_texture_scale]
    rw [if_neg (by norm_num)]
  rw [h]
  norm_num

/-- C5 (amended): for positive display and image dimensions (with
`display_ratio = display_width / display_height`), Tile's portrait branch
(`display_ratio > image_ratio`) yields scales that are both ≥ 1, equal to
(1,1) exactly in the documented fallback where the clamped height is 1; in
the landscape branch only the horizontal scale is clamped to ≥ 1, while the
vertical scale is `display_height / image_height` and may drop below 1. -/
theorem tile_scale_bounds (dw dh iw ih : ℚ) (hdw : 0 < dw) (hdh : 0 < dh)
    (hiw : 0 < iw) (hih : 0 < ih) :
    (dw / dh > iw / ih →
        1 ≤ (gen_texture_scale BackgroundMode.tile dw dh (dw / dh) iw ih).1
        ∧ 1 ≤ (gen_texture_scale BackgroundMode.tile dw dh (dw / dh) iw ih).2)
    ∧ (dw / dh > iw / ih → max (dh / ih / (dh / dw)) 1 = 1 →
        gen_texture_scale BackgroundMode.tile dw dh (dw / dh) iw ih = (1, 1))
    ∧ (¬ dw / dh > iw / ih →
        1 ≤ (gen_texture_scale BackgroundMode.tile dw dh (dw / dh) iw ih).1
        ∧ (gen_texture_scale BackgroundMode.tile dw dh (dw / dh) iw ih).2
            = dh / ih) := by
  have hexpand : gen_texture_scale BackgroundMode.tile dw dh (dw / dh) iw ih
      = if dw / dh > iw / ih then
          (if max (dh / ih / (dh / dw)) 1 = 1 then ((1 : ℚ), (1 : ℚ))
           else (dw / iw / (dh / dw), max (dh / ih / (dh / dw)) 1))
        else (max (dw / iw) 1, dh / ih) := rfl
  have hihne := hih.ne'
  have hdhne := hdh.ne'
  have hdwne := hdw.ne'
  have hiwne := hiw.ne'
  rw [hexpand]
  refine ⟨fun hp => ?_, fun hp hfall => ?_, fun hl => ?_⟩
  · rw [if_pos hp]
    by_cases hfall : max (dh / ih / (dh / dw)) 1 = 1
    · rw [if_pos hfall]
      exact ⟨le_refl 1, le_refl 1⟩
    · rw [if_neg hfall]
      refine ⟨?_, le_max_right _ _⟩
      have hu : dh / ih / (dh / dw) = dw / ih := by
        field_simp
        ring
      have h1u : 1 < dh / ih / (dh / dw) := by
        by_contra hle
        push_neg at hle
        exact hfall (max_eq_right hle)
      rw [hu] at h1u
      have hihdw : ih < dw := (one_lt_div hih).mp h1u
      have hcross : iw * dh < dw * ih := (div_lt_div_iff₀ hih hdh).mp hp
      have hgoal : dw / iw / (dh / dw) = dw * dw / (iw * dh) := by
        field_simp
      rw [hgoal, le_div_iff₀ (by positivity)]
      nlinarith [mul_lt_mul_of_pos_left hihdw hdw]
  · rw [if_pos hp, if_pos hfall]
  · rw [if_neg hl]
    exact ⟨le_max_right _ _, rfl⟩

theorem tile_scale_bounds_witness :
    ((100 : ℚ) / 200 > 10 / 40 →
        1 ≤ (gen_texture_scale BackgroundMode.tile 100 200 (100 / 200) 10 40).1
        ∧ 1 ≤ (gen_texture_scale BackgroundMode.tile 100 200 (100 / 200) 10 40).2)
    ∧ ((100 : ℚ) / 200 > 10 / 40 → max ((200 : ℚ) / 40 / (200 / 100)) 1 = 1 →
        gen_texture_scale BackgroundMode.tile 100 200 (100 / 200) 10 40 = (1, 1))
    ∧ (¬ (100 : ℚ) / 200 > 10 / 40 →
        1 ≤ (gen_texture_scale BackgroundMode.tile 100 200 (100 / 200) 10 40).1
        ∧ (gen_texture_scale BackgroundMode.tile 100 200 (100 / 200) 10 40).2
            = 200 / 40) :=
  tile_scale_bounds 100 200 10 40 (by norm_num) (by norm_num) (by norm_num)
    (by norm_num)

/-! ## C8 — snapshot immutability -/

theorem updateCacheGo_store_append (fs : FS) (store : List (List FilePath'))
    (l : List Filelist) : ∃ ext, (updateCacheGo fs store l).1 = store ++ ext := by
  induction l generalizing store with
  | nil => exact ⟨[], by simp [updateCacheGo]⟩
  | cons e rest ih =>
    by_cases h : e.outdated = true
    · simp only [updateCacheGo, h, if_true]
      obtain ⟨ext, hext⟩ := ih ((Filelist.populate fs store e).1)
      refine ⟨[populateList fs e.path e.recursive] ++ ext, ?_⟩
      rw [hext]
      simp [Filelist.populate]
    · simp only [updateCacheGo, h, if_false]
      exact ih store

theorem registerGo_store_append (fs : FS) (store : List (List FilePath'))
    (cache : List Filelist) (paths : List (FilePath' × Recursive)) :
    ∃ ext, (registerGo fs store cache paths).1 = store ++ ext := by
  induction paths generalizing store cache with
  | nil => exact ⟨[], by simp [registerGo]⟩
  | cons pr rest ih =>
    obtain ⟨p, r⟩ := pr
    by_cases h1 : (cache.any fun e => e.path == p) = true
    · simp only [registerGo, h1, if_true]
      exact ih store cache
    · by_cases h2 : (!pathExists fs p || !isDir fs p) = true
      · simp only [registerGo, h1, h2, if_true, if_false]
        exact ih store cache
      · simp only [registerGo, h1, h2, if_false]
        obtain ⟨ext, hext⟩ :=
          ih (Filelist.new fs store p r).1 (cache ++ [(Filelist.new fs store p r).2])
        refine ⟨[[]] ++ [populateList fs p r] ++ ext, ?_⟩
        rw [hext]
        simp [Filelist.new, Filelist.populate]

theorem applyOp_store_append (fs : FS) (c : FilelistCache) (op : CacheOp) :
    ∃ ext, (applyOp fs c op).store = c.store ++ ext := by
  cases op with
  | refresh => exact updateCacheGo_store_append fs c.store c.cache
  | reconcile paths =>
    obtain ⟨ext1, hext1⟩ :=
      registerGo_store_append fs c.store (c.cache.filter (retainKeep fs paths)) paths
    obtain ⟨ext2, hext2⟩ :=
      updateCacheGo_store_append fs
        (registerGo fs c.store (c.cache.filter (retainKeep fs paths)) paths).1
        (registerGo fs c.store (c.cache.filter (retainKeep fs paths)) paths).2.1
    exact ⟨ext1 ++ ext2, by
      simp only [applyOp, FilelistCache.update_paths]
      rw [hext2, hext1, List.append_assoc]⟩
  | invalidate path recursive => exact ⟨[], by simp [applyOp, FilelistCache.invalidate]⟩

theorem applyOps_store_preserved (fs : FS) (c : FilelistCache) (ops : List CacheOp)
    (i : ℕ) (hi : i < c.store.length) :
    (applyOps fs c ops).store[i]? = c.store[i]? := by
  induction ops generalizing c with
  | nil => rfl
  | cons op ops ih =>
    obtain ⟨ext, hext⟩ := applyOp_store_append fs c op
    have hi' : i < (applyOp fs c op).store.length := by
      rw [hext, List.length_append]
      omega
    calc (applyOps fs (applyOp fs c op) ops).store[i]?
        = (applyOp fs c op).store[i]? := ih _ hi'
      _ = c.store[i]? := by rw [hext, List.getElem?_append_left hi]

/-- C8: a snapshot handed out by `get` is immutable: whatever sequence of
refresh, reconcile and invalidation operations runs afterwards, the list
the caller's `Arc` index denotes in the snapshot heap is unchanged —
re-population only allocates fresh indices (`Arc::new`), it never writes an
existing one. -/
theorem lookup_snapshot_immutable (fs : FS) (c : FilelistCache) (path : FilePath')
    (recursive : Recursive) (ptr : ℕ)
    (hwf : ∀ e ∈ c.cache, e.filelist < c.store.length)
    (hget : c.get path recursive = some ptr) (ops : List CacheOp) :
    ptr < c.store.length ∧ (applyOps fs c ops).store[ptr]? = c.store[ptr]? := by
  have hp : ptr < c.store.length := by
    unfold FilelistCache.get at hget
    obtain ⟨e, hfind, hptr⟩ := Option.map_eq_some'.mp hget
    exact hptr ▸ hwf e (List.mem_of_find?_eq_some hfind)
  exact ⟨hp, applyOps_store_preserved fs c ops ptr hp⟩

def exampleCache : FilelistCache :=
  (FilelistCache.update_paths exampleFS ⟨[], []⟩ [(["wp"], Recursive.off)]).1

theorem lookup_snapshot_immutable_witness :
    1 < exampleCache.store.length
    ∧ (applyOps exampleFS exampleCache
        [CacheOp.invalidate ["wp"] Recursive.off, CacheOp.refresh]).store[1]?
      = exampleCache.store[1]? :=
  lookup_snapshot_immutable exampleFS exampleCache ["wp"] Recursive.off 1
    (by decide) (by decide)
    [CacheOp.invalidate ["wp"] Recursive.off, CacheOp.refresh]

/-! ## C7 — idempotence of registration -/

theorem pathExists_of_isDir {fs : FS} {p : FilePath'} (h : isDir fs p = true) :
    pathExists fs p = true := by
  unfold isDir at h
  unfold pathExists
  cases hf : findNode fs p with
  | none => rw [hf] at h; simp at h
  | some b => simp [hf]

theorem retainKeep_iff {fs : FS} {paths : List (FilePath' × Recursive)} {e : Filelist} :
    retainKeep fs paths e = true
      ↔ (e.path, e.recursive) ∈ paths ∧ pathExists fs e.path = true := by
  unfold retainKeep
  rw [Bool.and_eq_true, List.any_eq_true]
  constructor
  · rintro ⟨⟨pr, hpr, hmatch⟩, hex⟩
    rw [Bool.and_eq_true, beq_iff_eq, decide_eq_true_eq] at hmatch
    have : pr = (e.path, e.recursive) := by
      obtain ⟨p1, r1⟩ := pr
      simp only [Prod.mk.injEq]
      exact ⟨hmatch.1, hmatch.2.symm⟩
    exact ⟨this ▸ hpr, hex⟩
  · rintro ⟨hpr, hex⟩
    exact ⟨⟨(e.path, e.recursive), hpr, by simp⟩, hex⟩

theorem updateCacheGo_entries (fs : FS) (store : List (List FilePath'))
    (l : List Filelist) :
    ∀ e' ∈ (updateCacheGo fs store l).2.1,
      e'.outdated = false ∧ ∃ e ∈ l, e'.path = e.path ∧ e'.recursive = e.recursive := by
  induction l generalizing store with
  | nil => intro e' h; simp [updateCacheGo] at h
  | cons e rest ih =>
    intro e' h
    by_cases ho : e.outdated = true
    · simp only [updateCacheGo, ho, if_true] at h
      rcases List.mem_cons.mp h with rfl | h
      · exact ⟨rfl, e, List.mem_cons_self e rest, rfl, rfl⟩
      · obtain ⟨hout, e0, he0, hp, hr⟩ := ih _ e' h
        exact ⟨hout, e0, List.mem_cons_of_mem e he0, hp, hr⟩
    · simp only [updateCacheGo, ho, if_false] at h
      rcases List.mem_cons.mp h with rfl | h
      · exact ⟨Bool.not_eq_true e'.outdated ▸ ho, e', List.mem_cons_self e' rest,
          rfl, rfl⟩
      · obtain ⟨hout, e0, he0, hp, hr⟩ := ih _ e' h
        exact ⟨hout, e0, List.mem_cons_of_mem e he0, hp, hr⟩

theorem updateCacheGo_covers (fs : FS) (store : List (List FilePath'))
    (l : List Filelist) :
    ∀ e ∈ l, ∃ e' ∈ (updateCacheGo fs store l).2.1,
      e'.path = e.path ∧ e'.recursive = e.recursive := by
  induction l generalizing store with
  | nil => intro e h; simp at h
  | cons e0 rest ih =>
    intro e h
    by_cases ho : e0.outdated = true
    · rcases List.mem_cons.mp h with rfl | h
      · exact ⟨(Filelist.populate fs store e).2, by
          simp only [updateCacheGo, ho, if_true]
          exact List.mem_cons_self _ _, rfl, rfl⟩
      · obtain ⟨e', he', hp, hr⟩ := ih (Filelist.populate fs store e0).1 e h
        exact ⟨e', by
          simp only [updateCacheGo, ho, if_true]
          exact List.mem_cons_of_mem _ he', hp, hr⟩
    · rcases List.mem_cons.mp h with rfl | h
      · exact ⟨e, by
          simp only [updateCacheGo, ho, if_false]
          exact List.mem_cons_self _ _, rfl, rfl⟩
      · obtain ⟨e', he', hp, hr⟩ := ih store e h
        exact ⟨e', by
          simp only [updateCacheGo, ho, if_false]
          exact List.mem_cons_of_mem _ he', hp, hr⟩

theorem updateCacheGo_id (fs : FS) (store : List (List FilePath'))
    (l : List Filelist) (h : ∀ e ∈ l, e.outdated = false) :
    updateCacheGo fs store l = (store, l, []) := by
  induction l generalizing store with
  | nil => rfl
  | cons e rest ih =>
    have he : e.outdated = false := h e (List.mem_cons_self e rest)
    simp [updateCacheGo, he, ih store (fun e' h' => h e' (List.mem_cons_of_mem e h'))]

theorem registerGo_cache_mono (fs : FS) (store : List (List FilePath'))
    (cache : List Filelist) (paths : List (FilePath' × Recursive)) :
    ∀ e ∈ cache, e ∈ (registerGo fs store cache paths).2.1 := by
  induction paths generalizing store cache with
  | nil => intro e h; exact h
  | cons pr rest ih =>
    obtain ⟨p, r⟩ := pr
    intro e h
    by_cases h1 : (cache.any fun e => e.path == p) = true
    · simp only [registerGo, h1, if_true]
      exact ih store cache e h
    · by_cases h2 : (!pathExists fs p || !isDir fs p) = true
      · simp only [registerGo, h1, h2, if_true, if_false]
        exact ih store cache e h
      · simp only [registerGo, h1, h2, if_false]
        exact ih _ _ e (List.mem_append_left _ h)

theorem registerGo_covers (fs : FS) (store : List (List FilePath'))
    (cache : List Filelist) (paths : List (FilePath' × Recursive)) :
    ∀ pr ∈ paths, isDir fs pr.1 = true →
      ∃ e ∈ (registerGo fs store cache paths).2.1, e.path = pr.1 := by
  induction paths generalizing store cache with
  | nil => intro pr h; simp at h
  | cons pr0 rest ih =>
    obtain ⟨p, r⟩ := pr0
    intro pr hpr hdir
    by_cases h1 : (cache.any fun e => e.path == p) = true
    · simp only [registerGo, h1, if_true]
      rcases List.mem_cons.mp hpr with rfl | hpr
      · obtain ⟨e, he, hep⟩ := List.any_eq_true.mp h1
        exact ⟨e, registerGo_cache_mono fs store cache rest e he,
          by simpa using hep⟩
      · exact ih store cache pr hpr hdir
    · by_cases h2 : (!pathExists fs p || !isDir fs p) = true
      · simp only [registerGo, h1, h2, if_true, if_false]
        rcases List.mem_cons.mp hpr with rfl | hpr
        · rw [Bool.or_eq_true, Bool.not_eq_true', Bool.not_eq_true'] at h2
          rcases h2 with h2 | h2
          · rw [pathExists_of_isDir hdir] at h2; cases h2
          · rw [hdir] at h2; cases h2
        · exact ih store cache pr hpr hdir
      · simp only [registerGo, h1, h2, if_false]
        rcases List.mem_cons.mp hpr with rfl | hpr
        · refine ⟨(Filelist.new fs store p r).2, ?_, rfl⟩
          exact registerGo_cache_mono fs _ _ rest _
            (List.mem_append_right _ (List.mem_cons_self _ _))
        · exact ih _ _ pr hpr hdir

theorem registerGo_entries (fs : FS) (store : List (List FilePath'))
    (cache : List Filelist) (paths : List (FilePath' × Recursive)) :
    ∀ e ∈ (registerGo fs store cache paths).2.1,
      e ∈ cache ∨ ((e.path, e.recursive) ∈ paths ∧ isDir fs e.path = true
        ∧ e.outdated = false) := by
  induction paths generalizing store cache with
  | nil => intro e h; exact Or.inl h
  | cons pr0 rest ih =>
    obtain ⟨p, r⟩ := pr0
    intro e h
    by_cases h1 : (cache.any fun e => e.path == p) = true
    · simp only [registerGo, h1, if_true] at h
      rcases ih store cache e h with h | ⟨hp, hd, ho⟩
      · exact Or.inl h
      · exact Or.inr ⟨List.mem_cons_of_mem _ hp, hd, ho⟩
    · by_cases h2 : (!pathExists fs p || !isDir fs p) = true
      · simp only [registerGo, h1, h2, if_true, if_false] at h
        rcases ih store cache e h with h | ⟨hp, hd, ho⟩
        · exact Or.inl h
        · exact Or.inr ⟨List.mem_cons_of_mem _ hp, hd, ho⟩
      · have hdir : isDir fs p = true := by
          rcases Bool.eq_false_or_eq_true (isDir fs p) with hd | hd
          · exact hd
          · exact absurd (by simp [hd]) h2
        simp only [registerGo, h1, h2, if_false] at h
        rcases ih _ _ e h with h | ⟨hp, hd, ho⟩
        · rcases List.mem_append.mp h with h | h
          · exact Or.inl h
          · have he : e = (Filelist.new fs store p r).2 := List.mem_singleton.mp h
            subst he
            exact Or.inr ⟨List.mem_cons_self _ _, hdir, rfl⟩
        · exact Or.inr ⟨List.mem_cons_of_mem _ hp, hd, ho⟩

theorem registerGo_id (fs : FS) (store : List (List FilePath'))
    (cache : List Filelist) (paths : List (FilePath' × Recursive))
    (h : ∀ pr ∈ paths, (∃ e ∈ cache, e.path = pr.1) ∨ ¬ isDir fs pr.1 = true) :
    registerGo fs store cache paths = (store, cache, []) := by
  induction paths with
  | nil => rfl
  | cons pr0 rest ih =>
    obtain ⟨p, r⟩ := pr0
    rcases h (p, r) (List.mem_cons_self _ _) with ⟨e, he, hep⟩ | hnd
    · have hany : (cache.any fun e => e.path == p) = true :=
        List.any_eq_true.mpr ⟨e, he, by simp [hep]⟩
      simp only [registerGo, hany, if_true]
      exact ih fun pr h' => h pr (List.mem_cons_of_mem _ h')
    · have hnd' : isDir fs p = false := Bool.not_eq_true _ ▸ hnd
      have hb : (!pathExists fs p || !isDir fs p) = true := by simp [hnd']
      by_cases hany : (cache.any fun e => e.path == p) = true
      · simp only [registerGo, hany, if_true]
        exact ih fun pr h' => h pr (List.mem_cons_of_mem _ h')
      · simp only [registerGo, hany, hb, if_true, if_false]
        exact ih fun pr h' => h pr (List.mem_cons_of_mem _ h')

theorem update_paths_post (fs : FS) (c : FilelistCache)
    (paths : List (FilePath' × Recursive)) :
    ∀ e ∈ (FilelistCache.update_paths fs c paths).1.cache,
      (e.path, e.recursive) ∈ paths ∧ pathExists fs e.path = true
        ∧ e.outdated = false := by
  intro e he
  have he' : e ∈ (updateCacheGo fs
      (registerGo fs c.store (c.cache.filter (retainKeep fs paths)) paths).1
      (registerGo fs c.store (c.cache.filter (retainKeep fs paths)) paths).2.1).2.1 :=
    he
  obtain ⟨hout, e0, he0, hp, hr⟩ := updateCacheGo_entries fs _ _ e he'
  rcases registerGo_entries fs _ _ paths e0 he0 with hmem | ⟨hpair, hdir, -⟩
  · have hkeep : retainKeep fs paths e0 = true := List.of_mem_filter hmem
    obtain ⟨hpr, hex⟩ := retainKeep_iff.mp hkeep
    rw [hp, hr]
    exact ⟨hpr, hex, hout⟩
  · rw [hp, hr]
    exact ⟨hpair, pathExists_of_isDir hdir, hout⟩

theorem update_paths_covers (fs : FS) (c : FilelistCache)
    (paths : List (FilePath' × Recursive)) :
    ∀ pr ∈ paths, isDir fs pr.1 = true →
      ∃ e ∈ (FilelistCache.update_paths fs c paths).1.cache, e.path = pr.1 := by
  intro pr hpr hdir
  obtain ⟨e, he, hep⟩ :=
    registerGo_covers fs c.store (c.cache.filter (retainKeep fs paths)) paths pr
      hpr hdir
  obtain ⟨e', he', hp', -⟩ := updateCacheGo_covers fs
    (registerGo fs c.store (c.cache.filter (retainKeep fs paths)) paths).1 _ e he
  exact ⟨e', he', hp'.trans hep⟩

/-- C7: registration via `update_paths` is idempotent: running
`update_paths` a second time with the same requested set leaves the cache —
every entry and every stored snapshot — exactly as the first run left it
and produces no events at all: no unwatch, no duplicate watch, and no
re-scan (every outdated flag is already clear after the first run; only an
externally set outdated flag would trigger a re-population). -/
theorem update_paths_idempotent (fs : FS) (c : FilelistCache)
    (paths : List (FilePath' × Recursive)) :
    FilelistCache.update_paths fs (FilelistCache.update_paths fs c paths).1 paths
      = ((FilelistCache.update_paths fs c paths).1, []) := by
  set s1 := (FilelistCache.update_paths fs c paths).1 with hs1
  have hpost := update_paths_post fs c paths
  have hcov := update_paths_covers fs c paths
  have hkeep : ∀ e ∈ s1.cache, retainKeep fs paths e = true := fun e he =>
    retainKeep_iff.mpr ⟨(hpost e he).1, (hpost e he).2.1⟩
  have hfilter : s1.cache.filter (retainKeep fs paths) = s1.cache :=
    List.filter_eq_self.mpr hkeep
  have hev1 : (s1.cache.filter fun e =>
      !retainKeep fs paths e && pathExists fs e.path) = [] :=
    List.filter_eq_nil_iff.mpr fun e he => by simp [hkeep e he]
  have hreg : registerGo fs s1.store s1.cache paths = (s1.store, s1.cache, []) := by
    apply registerGo_id
    intro pr hpr
    by_cases hdir : isDir fs pr.1 = true
    · exact Or.inl (hcov pr hpr hdir)
    · exact Or.inr hdir
  have hupd : updateCacheGo fs s1.store s1.cache = (s1.store, s1.cache, []) :=
    updateCacheGo_id _ _ _ fun e he => (hpost e he).2.2
  show FilelistCache.update_paths fs s1 paths = (s1, [])
  simp only [FilelistCache.update_paths, hfilter, hev1, hreg, hupd, List.map_nil,
    List.nil_append, List.append_nil]

/-! ## C1 — reconciliation convergence -/

theorem pairsOf_cons (e : Filelist) (l : List Filelist) :
    pairsOf (e :: l) = (e.path, e.recursive) :: pairsOf l := rfl

theorem mem_pairsOf {pr : FilePath' × Recursive} {l : List Filelist} :
    pr ∈ pairsOf l ↔ ∃ e ∈ l, (e.path, e.recursive) = pr := by
  simp [pairsOf, List.mem_map]

theorem updateCacheGo_pairs (fs : FS) (store : List (List FilePath'))
    (l : List Filelist) : pairsOf (updateCacheGo fs store l).2.1 = pairsOf l := by
  induction l generalizing store with
  | nil => rfl
  | cons e rest ih =>
    by_cases ho : e.outdated = true
    · simp only [updateCacheGo, ho, if_true, pairsOf_cons]
      exact congrArg _ (ih _)
    · simp only [updateCacheGo, ho, if_false, pairsOf_cons]
      exact congrArg _ (ih _)

theorem registerGo_pairs_mem (fs : FS) :
    ∀ (paths : List (FilePath' × Recursive)), (paths.map Prod.fst).Nodup →
      ∀ (store : List (List FilePath')) (cache : List Filelist)
        (pr : FilePath' × Recursive),
        (pr ∈ pairsOf (registerGo fs store cache paths).2.1
          ↔ pr ∈ pairsOf cache
            ∨ (pr ∈ paths ∧ isDir fs pr.1 = true ∧ ∀ e ∈ cache, e.path ≠ pr.1)) := by
  intro paths
  induction paths with
  | nil => intro _ store cache pr; simp [registerGo]
  | cons pr0 rest ih =>
    intro hS store cache pr
    obtain ⟨p, r⟩ := pr0
    rw [List.map_cons, List.nodup_cons] at hS
    obtain ⟨hpnot, hnodup⟩ := hS
    by_cases hany : (cache.any fun e => e.path == p) = true
    · simp only [registerGo, hany, if_true]
      rw [ih hnodup store cache pr]
      constructor
      · rintro (h | ⟨h1, h2, h3⟩)
        · exact Or.inl h
        · exact Or.inr ⟨List.mem_cons_of_mem _ h1, h2, h3⟩
      · rintro (h | ⟨h1, h2, h3⟩)
        · exact Or.inl h
        · rcases List.mem_cons.mp h1 with heq | h1
          · obtain ⟨e, he, hep⟩ := List.any_eq_true.mp hany
            have : e.path = pr.1 := by rw [heq]; simpa using hep
            exact absurd this (h3 e he)
          · exact Or.inr ⟨h1, h2, h3⟩
    · by_cases h2 : (!pathExists fs p || !isDir fs p) = true
      · have hdf : isDir fs p = false := by
          rcases Bool.eq_false_or_eq_true (isDir fs p) with hd | hd
          · rw [Bool.or_eq_true, Bool.not_eq_true', Bool.not_eq_true'] at h2
            rcases h2 with h2 | h2
            · rw [pathExists_of_isDir hd] at h2; cases h2
            · rw [hd] at h2; cases h2
          · exact hd
        simp only [registerGo, hany, h2, Bool.false_eq_true, if_true, if_false]
        rw [ih hnodup store cache pr]
        constructor
        · rintro (h | ⟨h1, h2', h3⟩)
          · exact Or.inl h
          · exact Or.inr ⟨List.mem_cons_of_mem _ h1, h2', h3⟩
        · rintro (h | ⟨h1, h2', h3⟩)
          · exact Or.inl h
          · rcases List.mem_cons.mp h1 with heq | h1
            · rw [heq] at h2'
              rw [hdf] at h2'
              cases h2'
            · exact Or.inr ⟨h1, h2', h3⟩
      · have hdir : isDir fs p = true := by
          rcases Bool.eq_false_or_eq_true (isDir fs p) with hd | hd
          · exact hd
          · exact absurd (by simp [hd]) h2
        have hnone : ∀ e ∈ cache, e.path ≠ p := fun e he hep =>
          hany (List.any_eq_true.mpr ⟨e, he, by simp [hep]⟩)
        simp only [registerGo, hany, h2, Bool.false_eq_true, if_false]
        rw [ih hnodup (Filelist.new fs store p r).1
          (cache ++ [(Filelist.new fs store p r).2]) pr]
        have hpairs : pairsOf (cache ++ [(Filelist.new fs store p r).2])
            = pairsOf cache ++ [(p, r)] := by
          simp only [pairsOf, List.map_append, List.map_cons, List.map_nil]
          rfl
        rw [hpairs]
        constructor
        · rintro (h | ⟨h1, h2', h3⟩)
          · rcases List.mem_append.mp h with h | h
            · exact Or.inl h
            · have heq : pr = (p, r) := (List.mem_singleton.mp h)
              subst heq
              exact Or.inr ⟨List.mem_cons_self _ _, hdir, hnone⟩
          · refine Or.inr ⟨List.mem_cons_of_mem _ h1, h2', fun e he => h3 e ?_⟩
            exact List.mem_append_left _ he
        · rintro (h | ⟨h1, h2', h3⟩)
          · exact Or.inl (List.mem_append_left _ h)
          · rcases List.mem_cons.mp h1 with heq | h1
            · subst heq
              exact Or.inl (List.mem_append_right _ (List.mem_singleton.mpr rfl))
            · refine Or.inr ⟨h1, h2', fun e he => ?_⟩
              rcases List.mem_append.mp he with he | he
              · exact h3 e he
              · have : e = (Filelist.new fs store p r).2 := List.mem_singleton.mp he
                subst this
                intro hpath
                have hp' : p = pr.1 := hpath
                have hmem : pr.1 ∈ List.map Prod.fst rest :=
                  List.mem_map_of_mem Prod.fst h1
                rw [← hp'] at hmem
                exact hpnot hmem

def dupFS : FS := ⟨[(["wp"], true)]⟩

/-- C1 counterexample: the registration loop of `update_paths` checks only
whether some entry already covers the *path* (`filelist.path == path`),
ignoring the recursion policy — so a desired set holding the same existing
directory under both policies converges to a single cached entry, not two
distinct ones as the claim requires. -/
theorem update_paths_two_policies_cex :
    isDir dupFS ["wp"] = true
    ∧ (["wp"], Recursive.on) ∈ [(["wp"], Recursive.off), (["wp"], Recursive.on)]
    ∧ pairsOf ((FilelistCache.update_paths dupFS ⟨[], []⟩
        [(["wp"], Recursive.off), (["wp"], Recursive.on)]).1.cache)
      = [(["wp"], Recursive.off)]
    ∧ (["wp"], Recursive.on) ∉ pairsOf ((FilelistCache.update_paths dupFS ⟨[], []⟩
        [(["wp"], Recursive.off), (["wp"], Recursive.on)]).1.cache) := by decide

/-- C1 (amended): provided no two pairs of the desired set `S` share the
same path, and every previously cached entry whose path still exists is a
directory, after `update_paths(S)` the set of cached (path, recursion)
pairs is exactly the subset of `S` whose paths exist on disk as
directories. (Without the distinct-path proviso the claim fails: the
registration presence check is on the path alone, so the same path under
two recursion policies yields one cached entry, not two.) -/
theorem update_paths_converges (fs : FS) (c : FilelistCache)
    (paths : List (FilePath' × Recursive))
    (hS : (paths.map Prod.fst).Nodup)
    (hc : ∀ e ∈ c.cache, pathExists fs e.path = true → isDir fs e.path = true)
    (pr : FilePath' × Recursive) :
    pr ∈ pairsOf ((FilelistCache.update_paths fs c paths).1.cache)
      ↔ pr ∈ paths ∧ isDir fs pr.1 = true := by
  have h1 : pairsOf ((FilelistCache.update_paths fs c paths).1.cache)
      = pairsOf (registerGo fs c.store (c.cache.filter (retainKeep fs paths))
          paths).2.1 :=
    updateCacheGo_pairs fs _ _
  rw [h1, registerGo_pairs_mem fs paths hS _ _ pr]
  constructor
  · rintro (h | ⟨hmem, hdir, -⟩)
    · obtain ⟨e, he, hpr⟩ := mem_pairsOf.mp h
      have hkeep : retainKeep fs paths e = true := List.of_mem_filter he
      have hmem : e ∈ c.cache := List.mem_of_mem_filter he
      obtain ⟨hprS, hex⟩ := retainKeep_iff.mp hkeep
      have hdir := hc e hmem hex
      rw [← hpr]
      exact ⟨hprS, hdir⟩
    · exact ⟨hmem, hdir⟩
  · rintro ⟨hprS, hdir⟩
    by_cases hall : ∀ e ∈ c.cache.filter (retainKeep fs paths), e.path ≠ pr.1
    · exact Or.inr ⟨hprS, hdir, hall⟩
    · push_neg at hall
      obtain ⟨e, he, hep⟩ := hall
      have hkeep : retainKeep fs paths e = true := List.of_mem_filter he
      obtain ⟨heS, -⟩ := retainKeep_iff.mp hkeep
      have heq : (e.path, e.recursive) = pr :=
        List.inj_on_of_nodup_map hS heS hprS hep
      exact Or.inl (mem_pairsOf.mpr ⟨e, he, heq⟩)

theorem update_paths_converges_witness :
    (["wp"], Recursive.off) ∈ pairsOf ((FilelistCache.update_paths exampleFS ⟨[], []⟩
        [(["wp"], Recursive.off)]).1.cache)
      ↔ (["wp"], Recursive.off) ∈ [(["wp"], Recursive.off)]
          ∧ isDir exampleFS ["wp"] = true :=
  update_paths_converges exampleFS ⟨[], []⟩ [(["wp"], Recursive.off)] (by decide)
    (fun e he => absurd he (List.not_mem_nil e)) (["wp"], Recursive.off)

/-! ## C4 — lookup contents and order -/

theorem filename_append_singleton (p : FilePath') (m : String) :
    filename (p ++ [m]) = m := by
  simp [filename, List.getLastD_eq_getLast?, List.getLast?_concat]

theorem populateList_mem_image (fs : FS) (path : FilePath') (recursive : Recursive) :
    ∀ q ∈ populateList fs path recursive, isImageMime q = true := by
  intro q hq
  unfold populateList at hq
  by_cases hex : pathExists fs path = true
  · rw [if_pos hex] at hq
    exact List.of_mem_filter hq
  · rw [if_neg hex] at hq
    cases hq

theorem populateList_pairwise (fs : FS) (path : FilePath') (recursive : Recursive) :
    List.Pairwise PathLE (populateList fs path recursive) := by
  unfold populateList
  by_cases hex : pathExists fs path = true
  · rw [if_pos hex]
    unfold walkdirList
    exact List.Pairwise.filter _ (List.sorted_insertionSort PathLE _)
  · rw [if_neg hex]
    exact List.Pairwise.nil

theorem populateList_off_filename_sorted (fs : FS) (path : FilePath')
    (hroot : isImageMime path = false) :
    List.Pairwise (fun p q => strLE (filename p) (filename q) = true)
      (populateList fs path Recursive.off) := by
  have hshape : ∀ q ∈ populateList fs path Recursive.off, ∃ m, q = path ++ [m] := by
    intro q hq
    have hmime : isImageMime q = true := populateList_mem_image fs path _ q hq
    unfold populateList at hq
    by_cases hex : pathExists fs path = true
    · rw [if_pos hex] at hq
      have hq1 : q ∈ walkdirList fs path
          (if Recursive.off = Recursive.off then 1 else usizeMax) :=
        List.mem_of_mem_filter hq
      rw [if_pos rfl] at hq1
      unfold walkdirList at hq1
      have hq2 := (List.perm_insertionSort PathLE _).mem_iff.mp hq1
      have hpred := List.of_mem_filter hq2
      rw [Bool.and_eq_true] at hpred
      obtain ⟨hpref, hlen⟩ := hpred
      rw [List.isPrefixOf_iff_prefix] at hpref
      obtain ⟨t, rfl⟩ := hpref
      rw [decide_eq_true_eq, List.length_append] at hlen
      rcases t with - | ⟨m, - | ⟨m', t'⟩⟩
      · rw [List.append_nil] at hmime
        rw [hroot] at hmime
        cases hmime
      · exact ⟨m, rfl⟩
      · simp at hlen
    · rw [if_neg hex] at hq
      cases hq
  have hpw := populateList_pairwise fs path Recursive.off
  refine hpw.imp_of_mem ?_
  intro a b ha hb hab
  obtain ⟨m, rfl⟩ := hshape a ha
  obtain ⟨m', rfl⟩ := hshape b hb
  rw [filename_append_singleton, filename_append_singleton]
  exact pathLE_children hab

/-- C4 (amended): every entry `lookup` returns is classified `image/*` by
its extension (non-resolvable extensions are excluded without error), and
the list is in walkdir order — depth-first with siblings sorted by file
name. With recursion Off and a root that is not itself image-classified,
the list is sorted by file name. The `/wp` scenario holds: registering
`/wp` (holding `a.png`, `b.txt`, `c.jpg`) and looking it up yields
`[a.png, c.jpg]`. Directories are *not* excluded as such: a directory whose
name carries an image extension is listed (the filter is purely
mime-by-extension), and under recursion the full list is not globally
sorted by file name (see the counterexample). -/
theorem lookup_images_and_order (fs : FS) (path : FilePath') (recursive : Recursive) :
    (∀ q ∈ populateList fs path recursive, isImageMime q = true)
    ∧ List.Pairwise PathLE (populateList fs path recursive)
    ∧ (isImageMime path = false →
        List.Pairwise (fun p q => strLE (filename p) (filename q) = true)
          (populateList fs path Recursive.off))
    ∧ populateList exampleFS ["wp"] Recursive.off
        = [["wp", "a.png"], ["wp", "c.jpg"]]
    ∧ FilelistCache.lookupList
        (FilelistCache.update_paths exampleFS ⟨[], []⟩ [(["wp"], Recursive.off)]).1
        ["wp"] Recursive.off
      = some [["wp", "a.png"], ["wp", "c.jpg"]] :=
  ⟨populateList_mem_image fs path recursive,
   populateList_pairwise fs path recursive,
   populateList_off_filename_sorted fs path,
   by decide, by decide⟩

theorem lookup_images_and_order_witness :
    (∀ q ∈ populateList exampleFS ["wp"] Recursive.off, isImageMime q = true)
    ∧ List.Pairwise (fun p q => strLE (filename p) (filename q) = true)
        (populateList exampleFS ["wp"] Recursive.off) :=
  ⟨(lookup_images_and_order exampleFS ["wp"] Recursive.off).1,
   (lookup_images_and_order exampleFS ["wp"] Recursive.off).2.2.1 (by decide)⟩

def trickyFS : FS :=
  ⟨[(["wp"], true), (["wp", "b.png"], true), (["wp", "b.png", "a.jpg"], false),
    (["wp", "c.jpg"], false)]⟩

/-- C4 counterexample: the filter is mime-by-extension only, so a
*directory* named `b.png` is returned by lookup; and with recursion On the
walkdir (depth-first) order is not globally sorted by file name: `b.png`
precedes its child `a.jpg`. -/
theorem lookup_contains_dir_unsorted_cex :
    populateList trickyFS ["wp"] Recursive.on
      = [["wp", "b.png"], ["wp", "b.png", "a.jpg"], ["wp", "c.jpg"]]
    ∧ isDir trickyFS ["wp", "b.png"] = true
    ∧ ["wp", "b.png"] ∈ populateList trickyFS ["wp"] Recursive.on
    ∧ ¬ List.Pairwise (fun p q => strLE (filename p) (filename q) = true)
        (populateList trickyFS ["wp"] Recursive.on) := by decide
